import Mathlib

/-!
Verification of the ScamShield web application against its specification.

The development shallowly embeds the parts of the code base that the
claims concern:

* `frontend/app/page.tsx` — the fingerprint pipeline (`normalizeForHash`,
  `sha256`), the WhatsApp-forward boost inside `handleAnalyze`, the
  analyze-guard, `handleStoreOnBlockchain`, and the `ResultCard` verdict.
* `frontend/components/LocalHistory.tsx` — the history verdict.
* `blockchain/contracts/ScamLedger.sol` — the append-only ledger
  (`addScamHash`, `getTotalScams`, `getScamByIndex`).

JavaScript strings are modelled as lists of Unicode code points
(`List Nat`); JavaScript numbers holding probabilities are modelled as
rationals; Solidity storage is modelled as an explicit state record.
-/

/-! ## Text model: JavaScript string primitives used by `page.tsx` -/

/-- Whitespace test matching the class `\s` of JavaScript regular
expressions and the character set removed by `String.prototype.trim`:
tab, line feed, vertical tab, form feed, carriage return, space, NBSP,
Ogham space mark, the U+2000–U+200A range, line/paragraph separators,
narrow NBSP, medium mathematical space, ideographic space and BOM. -/
def isWS (c : Nat) : Bool :=
  c == 9 || c == 10 || c == 11 || c == 12 || c == 13 || c == 32 || c == 160 ||
  c == 5760 || (8192 ≤ c && c ≤ 8202) || c == 8232 || c == 8233 ||
  c == 8239 || c == 8287 || c == 12288 || c == 65279

/-- Lowercasing of a code point as performed by
`String.prototype.toLowerCase`, modelled on the Basic Latin range (the
only range exercised by the repository's inputs): `A`–`Z` map to
`a`–`z`, everything else is unchanged. -/
def toLowerCode (c : Nat) : Nat :=
  if 65 ≤ c ∧ c ≤ 90 then c + 32 else c

/-- Code points of a Lean string, used to write concrete inputs. -/
def strCodes (s : String) : List Nat := s.data.map Char.toNat

/-- Right half of `String.prototype.trim`: drop trailing whitespace. -/
def trimR (l : List Nat) : List Nat :=
  (l.reverse.dropWhile isWS).reverse

/-- Model of `String.prototype.trim`: drop leading and trailing
whitespace. -/
def trim (l : List Nat) : List Nat :=
  trimR (l.dropWhile isWS)

/-- Model of `text.replace(/\s+/g, " ")`: every maximal run of
whitespace characters is replaced by a single space (code 32). -/
def collapseWS : List Nat → List Nat
  | [] => []
  | c :: rest =>
    if isWS c then 32 :: collapseWS (rest.dropWhile isWS)
    else c :: collapseWS rest
termination_by l => l.length
decreasing_by
  · simp only [List.length_cons]
    exact Nat.lt_succ_of_le (List.dropWhile_sublist _).length_le
  · simp

/-- Model of `normalizeForHash` from `page.tsx`:
`text.trim().toLowerCase().replace(/\s+/g, " ")`. -/
def normalizeForHash (text : List Nat) : List Nat :=
  collapseWS ((trim text).map toLowerCode)

/-- Maximal runs of non-whitespace characters of a text, lowercased.
Two texts differ only in letter case or whitespace arrangement exactly
when they have the same `wordsOf` image (after lowercasing); this is the
canonical content that normalization is meant to preserve. -/
def wordsOf : List Nat → List (List Nat)
  | [] => []
  | c :: rest =>
    if isWS c then wordsOf (rest.dropWhile isWS)
    else (c :: rest.takeWhile (fun x => !isWS x)) ::
      wordsOf (rest.dropWhile (fun x => !isWS x))
termination_by l => l.length
decreasing_by
  · simp only [List.length_cons]
    exact Nat.lt_succ_of_le (List.dropWhile_sublist _).length_le
  · simp only [List.length_cons]
    exact Nat.lt_succ_of_le (List.dropWhile_sublist _).length_le

/-- Join a list of words with single spaces: the canonical normalized
form. -/
def joinWords : List (List Nat) → List Nat
  | [] => []
  | [w] => w
  | w :: ws => w ++ 32 :: joinWords ws

/-- Two texts differ only in letter case or in whitespace arrangement:
after lowercasing, they consist of the same words in the same order,
separated and surrounded by arbitrary whitespace. -/
def sameUpToCaseWS (t1 t2 : List Nat) : Prop :=
  wordsOf (t1.map toLowerCode) = wordsOf (t2.map toLowerCode)

instance (t1 t2 : List Nat) : Decidable (sameUpToCaseWS t1 t2) := by
  unfold sameUpToCaseWS; infer_instance

/-! ## SHA-256, modelling `crypto.subtle.digest("SHA-256", ...)` and the
`sha256` helper of `page.tsx` (UTF-8 encode, digest, hex-encode each
byte with `padStart(2, "0")`). -/

namespace SHA256

/-- Reduce to a 32-bit word. -/
def w32 (n : Nat) : Nat := n % 4294967296

/-- Right rotation of a 32-bit word. -/
def rotr (x n : Nat) : Nat := w32 ((x >>> n) ||| (x <<< (32 - n)))

/-- Big sigma-0 of the compression function. -/
def bsig0 (x : Nat) : Nat := (rotr x 2 ^^^ rotr x 13) ^^^ rotr x 22

/-- Big sigma-1 of the compression function. -/
def bsig1 (x : Nat) : Nat := (rotr x 6 ^^^ rotr x 11) ^^^ rotr x 25

/-- Small sigma-0 of the message schedule. -/
def ssig0 (x : Nat) : Nat := (rotr x 7 ^^^ rotr x 18) ^^^ (x >>> 3)

/-- Small sigma-1 of the message schedule. -/
def ssig1 (x : Nat) : Nat := (rotr x 17 ^^^ rotr x 19) ^^^ (x >>> 10)

/-- Choice function. -/
def ch (x y z : Nat) : Nat := (x &&& y) ^^^ ((x ^^^ 4294967295) &&& z)

/-- Majority function. -/
def maj (x y z : Nat) : Nat := ((x &&& y) ^^^ (x &&& z)) ^^^ (y &&& z)

/-- Round constants. -/
def K : List Nat :=
  [
   1116352408, 1899447441, 3049323471, 3921009573,
   961987163, 1508970993, 2453635748, 2870763221,
   3624381080, 310598401, 607225278, 1426881987,
   1925078388, 2162078206, 2614888103, 3248222580,
   3835390401, 4022224774, 264347078, 604807628,
   770255983, 1249150122, 1555081692, 1996064986,
   2554220882, 2821834349, 2952996808, 3210313671,
   3336571891, 3584528711, 113926993, 338241895,
   666307205, 773529912, 1294757372, 1396182291,
   1695183700, 1986661051, 2177026350, 2456956037,
   2730485921, 2820302411, 3259730800, 3345764771,
   3516065817, 3600352804, 4094571909, 275423344,
   430227734, 506948616, 659060556, 883997877,
   958139571, 1322822218, 1537002063, 1747873779,
   1955562222, 2024104815, 2227730452, 2361852424,
   2428436474, 2756734187, 3204031479, 3329325298
  ]

/-- Initial hash value. -/
def H0 : List Nat :=
  [
   1779033703, 3144134277, 1013904242, 2773480762,
   1359893119, 2600822924, 528734635, 1541459225
  ]

/-- Group bytes into big-endian 32-bit words. -/
def toWords : List Nat → List Nat
  | b0 :: b1 :: b2 :: b3 :: rest =>
    (((b0 * 256 + b1) * 256 + b2) * 256 + b3) :: toWords rest
  | _ => []

/-- One step of the message-schedule extension, on the reversed
schedule. -/
def stepW (ws : List Nat) : List Nat :=
  w32 (ssig1 (ws.getD 1 0) + ws.getD 6 0 + ssig0 (ws.getD 14 0) + ws.getD 15 0) :: ws

/-- Extend the 16 block words to the 64-entry message schedule. -/
def schedule (block16 : List Nat) : List Nat :=
  (stepW^[48] block16.reverse).reverse

/-- One compression round on the state `[a, b, c, d, e, f, g, h]`. -/
def round (st : List Nat) (kw : Nat × Nat) : List Nat :=
  match st with
  | [a, b, c, d, e, f, g, h] =>
    let t1 := w32 (h + bsig1 e + ch e f g + kw.1 + kw.2)
    let t2 := w32 (bsig0 a + maj a b c)
    [w32 (t1 + t2), a, b, c, w32 (d + t1), e, f, g]
  | other => other

/-- Compress one 64-byte block into the running hash. -/
def compress (hs : List Nat) (blockBytes : List Nat) : List Nat :=
  let st := ((K.zip (schedule (toWords blockBytes))).foldl round hs)
  List.zipWith (fun x y => w32 (x + y)) hs st

/-- Fold the compression function over all 64-byte blocks. -/
def processBlocks (hs : List Nat) (bytes : List Nat) : List Nat :=
  if h : bytes.isEmpty then hs
  else processBlocks (compress hs (bytes.take 64)) (bytes.drop 64)
termination_by bytes.length
decreasing_by
  simp only [List.length_drop]
  have : bytes ≠ [] := by simpa [List.isEmpty_iff] using h
  have := List.length_pos.mpr this
  omega

/-- The 8 bytes of the big-endian 64-bit message length. -/
def beBytes8 (n : Nat) : List Nat :=
  [(n >>> 56) % 256, (n >>> 48) % 256, (n >>> 40) % 256, (n >>> 32) % 256,
   (n >>> 24) % 256, (n >>> 16) % 256, (n >>> 8) % 256, n % 256]

/-- SHA-256 padding: `0x80`, zeros to 56 mod 64, then the bit length. -/
def pad (msg : List Nat) : List Nat :=
  msg ++ 128 :: (List.replicate ((64 - (msg.length + 9) % 64) % 64) 0 ++
    beBytes8 (8 * msg.length))

/-- The four big-endian bytes of a 32-bit word. -/
def wordBytes (w : Nat) : List Nat :=
  [(w >>> 24) % 256, (w >>> 16) % 256, (w >>> 8) % 256, w % 256]

/-- The 32-byte SHA-256 digest of a byte sequence. -/
def digestBytes (msg : List Nat) : List Nat :=
  ((processBlocks H0 (pad msg)).map wordBytes).flatten

end SHA256

/-- UTF-8 encoding of one code point, as produced by `TextEncoder`. -/
def utf8Encode1 (n : Nat) : List Nat :=
  if n < 128 then [n]
  else if n < 2048 then [192 + n / 64, 128 + n % 64]
  else if n < 65536 then [224 + n / 4096, 128 + (n / 64) % 64, 128 + n % 64]
  else [240 + n / 262144, 128 + (n / 4096) % 64, 128 + (n / 64) % 64, 128 + n % 64]

/-- UTF-8 encoding of a code-point sequence (`new TextEncoder().encode`). -/
def utf8Encode (l : List Nat) : List Nat := (l.map utf8Encode1).flatten

/-- Hex digit character, lowercase, as produced by `toString(16)`. -/
def hexDigitChar (n : Nat) : Char :=
  if n < 10 then Char.ofNat (48 + n) else Char.ofNat (87 + n)

/-- Two-character hex rendering of a byte
(`b.toString(16).padStart(2, "0")`). -/
def byteToHex (b : Nat) : List Char :=
  [hexDigitChar (b / 16), hexDigitChar (b % 16)]

/-- Model of the `sha256` helper of `page.tsx`: UTF-8 encode the text,
digest it with SHA-256, and render every digest byte as two lowercase
hex characters. -/
def sha256 (text : List Nat) : String :=
  String.mk (((SHA256.digestBytes (utf8Encode text)).map byteToHex).flatten)

/-! ## Frontend analysis model (`page.tsx`, `LocalHistory.tsx`) -/

/-- The analysis result shape returned by the backend, as declared in
`page.tsx` (`extracted_text` and `highlighted_phrases` are optional
presentation fields that the modelled operations never read). -/
structure AnalysisResult where
  probability : ℚ
  category : String
  red_flags : List String
  advice : String

/-- The flag string checked by the WhatsApp-forward dedup guard. -/
def guardFlag : String := "Mass-forwarded message pattern detected"

/-- The flag string actually inserted by the WhatsApp-forward boost. -/
def addedFlag : String := "Mass-forwarded WhatsApp pattern detected"

/-- Tag looked for at the start of the lowercased message. -/
def fwdTag : String := "forwarded"

/-- Tag looked for anywhere in the lowercased message. -/
def fwdManyTag : String := "forwarded many times"

/-- Model of `String.prototype.includes`: the pattern occurs as a
contiguous subsequence. -/
def containsSeq (pat : List Nat) : List Nat → Bool
  | [] => pat.isEmpty
  | c :: rest => pat.isPrefixOf (c :: rest) || containsSeq pat rest

/-- Model of the WhatsApp-forward detector block of `handleAnalyze`:
when the message is non-empty and its trimmed, lowercased form starts
with "forwarded" or contains "forwarded many times", and the guard flag
is not already present in `red_flags`, the added flag is unshifted onto
`red_flags` and the probability becomes
`Math.min(probability + 0.15, 0.99)`. -/
def whatsappBoost (message : List Nat) (r : AnalysisResult) : AnalysisResult :=
  if message.isEmpty then r
  else
    let lowerMsg := (trim message).map toLowerCode
    if (strCodes fwdTag).isPrefixOf lowerMsg ||
        containsSeq (strCodes fwdManyTag) lowerMsg then
      if r.red_flags.contains guardFlag then r
      else
        { r with
          red_flags := addedFlag :: r.red_flags
          probability := min (r.probability + 15 / 100) (99 / 100) }
    else r

/-- Model of the input guard at the top of `handleAnalyze`: the analysis
proceeds only when the trimmed message is non-empty or an image is
attached (`if (!message.trim() && !imageFile) return`). -/
def handleAnalyzeAccepts (message : List Nat) (hasImage : Bool) : Bool :=
  !(trim message).isEmpty || hasImage

/-- The body posted to `/store-scam`. -/
structure StorePayload where
  message_hash : String
  category : String

/-- Fallback raw input used when both the message and the image name are
absent. -/
def imageFallback : String := "image"

/-- Model of `handleStoreOnBlockchain`: returns `none` when no analysis
result is present (`if (!result) return`); otherwise takes
`message || imageFile?.name || "image"`, normalizes it, hashes it, and
submits `{message_hash, category}`. There is no other early exit. -/
def handleStoreOnBlockchain (result : Option AnalysisResult)
    (message : List Nat) (imageName : Option (List Nat)) : Option StorePayload :=
  match result with
  | none => none
  | some r =>
    let rawInput :=
      if message.isEmpty then imageName.getD (strCodes imageFallback)
      else message
    some ⟨sha256 (normalizeForHash rawInput), r.category⟩

/-- JavaScript `Math.round`: round half toward positive infinity. -/
def jsRound (q : ℚ) : ℤ := ⌊q + 1 / 2⌋

/-- The integer percentage shown by `ResultCard`:
`Math.round(result.probability * 100)`. -/
def pctOf (p : ℚ) : ℤ := jsRound (p * 100)

/-- The `ResultCard` verdict: `const isScam = pct >= 50`. -/
def resultCardIsScam (p : ℚ) : Bool := decide (50 ≤ pctOf p)

/-- The `LocalHistory` verdict: `const isScam = item.probability >= 0.5`. -/
def localHistoryIsScam (p : ℚ) : Bool := decide (1 / 2 ≤ p)

/-- Ambient browser state a handler could in principle read. The
fingerprint pipeline of `page.tsx` reads neither field. -/
structure BrowserEnv where
  now : Nat
  randomSeed : Nat

/-- The fingerprint pipeline as run by `handleStoreOnBlockchain`:
`sha256(normalizeForHash(text))`. The `BrowserEnv` argument records the
wall clock and random state available to the page; the pipeline does not
consult it, mirroring the absence of any `Date`/`Math.random` use in
`normalizeForHash` and `sha256`. -/
def fingerprintPipeline (_env : BrowserEnv) (text : List Nat) : String :=
  sha256 (normalizeForHash text)

/-! ## Ledger model (`ScamLedger.sol`) -/

/-- A stored scam entry (`struct ScamEntry`). -/
structure ScamEntry where
  hash : String
  category : String
  timestamp : Nat

/-- Contract storage: the private `scams` array. -/
structure LedgerState where
  scams : List ScamEntry

/-- Model of `addScamHash`: push a new entry carrying the submitted
hash, category, and the block timestamp; the second component is the
index emitted in the `ScamAdded` event (`scams.length - 1` after the
push), which is the sequence number the entry is known by. The function
has no revert path. -/
def addScamHash (st : LedgerState) (hashArg categoryArg : String)
    (blockTimestamp : Nat) : LedgerState × Nat :=
  let newScams := st.scams ++ [⟨hashArg, categoryArg, blockTimestamp⟩]
  (⟨newScams⟩, newScams.length - 1)

/-- Model of `getTotalScams`: the length of the `scams` array. -/
def getTotalScams (st : LedgerState) : Nat := st.scams.length

/-- Revert reason of the bounds check in `getScamByIndex`. -/
def idxErrMsg : String := "Index out of bounds"

/-- Model of `getScamByIndex`: `require(index < scams.length)` then
return the entry's fields; a failed `require` reverts with the given
reason string. -/
def getScamByIndex (st : LedgerState) (index : Nat) :
    Except String (String × String × Nat) :=
  if h : index < st.scams.length then
    Except.ok ((st.scams[index]).hash, (st.scams[index]).category,
      (st.scams[index]).timestamp)
  else Except.error idxErrMsg

/-- An external call to the `view` function `getScamByIndex`: it returns
its result together with the (unchanged) contract storage. -/
def getScamByIndexCall (st : LedgerState) (index : Nat) :
    Except String (String × String × Nat) × LedgerState :=
  (getScamByIndex st index, st)

/-- An external call to the `view` function `getTotalScams`. -/
def getTotalScamsCall (st : LedgerState) : Nat × LedgerState :=
  (getTotalScams st, st)

/-- Run a batch of `addScamHash` calls in order, collecting the emitted
sequence numbers. -/
def runAppends (st : LedgerState) :
    List (String × String × Nat) → LedgerState × List Nat
  | [] => (st, [])
  | op :: ops =>
    let r1 := addScamHash st op.1 op.2.1 op.2.2
    let r2 := runAppends r1.1 ops
    (r2.1, r1.2 :: r2.2)

/-! ## Concrete example inputs used by witnesses and counterexamples -/

/-- Example fingerprint string. -/
def exHash : String := "deadbeef"

/-- Example category string. -/
def exCat : String := "bank scam"

/-- Example advice string. -/
def exAdvice : String := "be careful"

/-- Example analysis result with probability one half and no flags. -/
def exResult : AnalysisResult := ⟨1 / 2, exCat, [], exAdvice⟩

/-- Example ledger holding a single entry. -/
def exLedger1 : LedgerState := ⟨[⟨exHash, exCat, 5⟩]⟩

/-- Three spaces: a whitespace-only message. -/
def wsOnly3 : List Nat := [32, 32, 32]

/-- Example WhatsApp-forward message. -/
def fwdMsgStr : String := "forwarded many times win a prize"

/-- Code points of the example WhatsApp-forward message. -/
def fwdMsg : List Nat := strCodes fwdMsgStr

/-- Code points of the text "Hi  THERE". -/
def exCodes1 : List Nat := [72, 105, 32, 32, 84, 72, 69, 82, 69]

/-- Code points of the text " hi", tab, "there", newline. -/
def exCodes2 : List Nat := [32, 104, 105, 9, 116, 104, 101, 114, 101, 10]

/-! ## Unfolding equations for the well-founded definitions -/

set_option maxHeartbeats 1600000 in
/-- Unfolding equation of `wordsOf` on a cons cell. -/
theorem wordsOf_cons (c : Nat) (rest : List Nat) :
    wordsOf (c :: rest) =
      if isWS c then wordsOf (rest.dropWhile isWS)
      else (c :: rest.takeWhile (fun x => !isWS x)) ::
        wordsOf (rest.dropWhile (fun x => !isWS x)) := by
  rw [wordsOf]

/-- Unfolding equation of `wordsOf` on the empty list. -/
theorem wordsOf_nil : wordsOf [] = [] := by rw [wordsOf]

set_option maxHeartbeats 1600000 in
/-- Unfolding equation of `collapseWS` on a cons cell. -/
theorem collapseWS_cons (c : Nat) (rest : List Nat) :
    collapseWS (c :: rest) =
      if isWS c then 32 :: collapseWS (rest.dropWhile isWS)
      else c :: collapseWS rest := by
  rw [collapseWS]

/-- Unfolding equation of `collapseWS` on the empty list. -/
theorem collapseWS_nil : collapseWS [] = [] := by rw [collapseWS]

/-! ## Ledger lemmas and claims C3, C7, C9, C10 -/

/-- The sequence numbers emitted by a batch of appends starting from an
arbitrary state are the consecutive indices following the current
length. -/
theorem runAppends_emitted (ops : List (String × String × Nat)) :
    ∀ st : LedgerState,
      (runAppends st ops).2 = (List.range ops.length).map (st.scams.length + ·) := by
  induction ops with
  | nil => intro st; simp [runAppends]
  | cons op ops ih =>
    intro st
    simp only [runAppends, addScamHash, ih, List.length_append, List.length_cons,
      List.length_nil, List.range_succ_eq_map, List.map_cons, List.map_map]
    refine List.cons_eq_cons.mpr ⟨by omega, ?_⟩
    refine List.map_congr_left fun a _ => ?_
    simp only [Function.comp_apply, Nat.succ_eq_add_one]
    omega

/-- The state after a batch of appends holds the old entries plus one
entry per operation. -/
theorem runAppends_length (ops : List (String × String × Nat)) :
    ∀ st : LedgerState,
      (runAppends st ops).1.scams.length = st.scams.length + ops.length := by
  induction ops with
  | nil => intro st; simp [runAppends]
  | cons op ops ih =>
    intro st
    simp only [runAppends, addScamHash, ih, List.length_append]
    simp
    omega

/-- Reading below the length succeeds with the stored entry's fields. -/
theorem getScamByIndex_lt {st : LedgerState} {i : Nat} (h : i < st.scams.length) :
    getScamByIndex st i =
      Except.ok ((st.scams[i]).hash, (st.scams[i]).category, (st.scams[i]).timestamp) := by
  rw [getScamByIndex, dif_pos h]

/-- Reading at or beyond the length reverts with the bounds message. -/
theorem getScamByIndex_ge {st : LedgerState} {i : Nat} (h : ¬ i < st.scams.length) :
    getScamByIndex st i = Except.error idxErrMsg := by
  rw [getScamByIndex, dif_neg h]

/-- Claim C3, counterexample: a single successful append on the empty
ledger emits sequence number 0, not 1, so the set of assigned sequence
numbers after N = 1 appends is {0}, not {1} as claimed. -/
theorem first_sequence_is_zero_not_one :
    (runAppends ⟨[]⟩ [(exHash, exCat, 0)]).2 = [0] ∧
    (runAppends ⟨[]⟩ [(exHash, exCat, 0)]).2 ≠ [1] := by
  constructor
  · decide
  · decide

/-- Claim C3 (amended): after N successful appends on an initially empty
ledger, the sequence numbers assigned to the stored entries (the 0-based
indices emitted by `addScamHash`) are exactly 0, 1, ..., N-1 — no gaps,
no duplicates, each later entry's sequence strictly greater than every
earlier one — and the stored count is N. -/
theorem appended_sequences_exact_range (ops : List (String × String × Nat)) :
    (runAppends ⟨[]⟩ ops).2 = List.range ops.length ∧
    List.Pairwise (· < ·) (runAppends ⟨[]⟩ ops).2 ∧
    getTotalScams (runAppends ⟨[]⟩ ops).1 = ops.length := by
  have h1 : (runAppends ⟨[]⟩ ops).2 = List.range ops.length := by
    rw [runAppends_emitted]; simp
  refine ⟨h1, ?_, ?_⟩
  · rw [h1]; exact List.pairwise_lt_range ops.length
  · rw [getTotalScams, runAppends_length]; simp

/-- Claim C7: appending the same fingerprint twice succeeds both times
and creates two distinct entries: the two entries carry the same hash
but distinct consecutive sequence numbers, and the count grows by one on
each append. -/
theorem duplicate_fingerprint_two_entries (st : LedgerState)
    (hashArg categoryArg : String) (t1 t2 : Nat) :
    (addScamHash st hashArg categoryArg t1).2 = st.scams.length ∧
    (addScamHash (addScamHash st hashArg categoryArg t1).1 hashArg categoryArg t2).2 =
      (addScamHash st hashArg categoryArg t1).2 + 1 ∧
    getScamByIndex (addScamHash (addScamHash st hashArg categoryArg t1).1
      hashArg categoryArg t2).1 st.scams.length = Except.ok (hashArg, categoryArg, t1) ∧
    getScamByIndex (addScamHash (addScamHash st hashArg categoryArg t1).1
      hashArg categoryArg t2).1 (st.scams.length + 1) = Except.ok (hashArg, categoryArg, t2) ∧
    getTotalScams (addScamHash st hashArg categoryArg t1).1 = getTotalScams st + 1 ∧
    getTotalScams (addScamHash (addScamHash st hashArg categoryArg t1).1
      hashArg categoryArg t2).1 = getTotalScams st + 2 := by
  have hb1 : st.scams.length < ((st.scams ++ [(⟨hashArg, categoryArg, t1⟩ : ScamEntry)]) ++
      [(⟨hashArg, categoryArg, t2⟩ : ScamEntry)]).length := by simp
  have hb2 : st.scams.length + 1 < ((st.scams ++ [(⟨hashArg, categoryArg, t1⟩ : ScamEntry)]) ++
      [(⟨hashArg, categoryArg, t2⟩ : ScamEntry)]).length := by simp
  have hA : ((st.scams ++ [(⟨hashArg, categoryArg, t1⟩ : ScamEntry)]) ++
      [(⟨hashArg, categoryArg, t2⟩ : ScamEntry)])[st.scams.length] =
      (⟨hashArg, categoryArg, t1⟩ : ScamEntry) := by
    rw [List.getElem_append_left (by simp)]
    simp
  have hB : ((st.scams ++ [(⟨hashArg, categoryArg, t1⟩ : ScamEntry)]) ++
      [(⟨hashArg, categoryArg, t2⟩ : ScamEntry)])[st.scams.length + 1] =
      (⟨hashArg, categoryArg, t2⟩ : ScamEntry) := by
    rw [List.getElem_append_right (by simp)]
    simp
  refine ⟨by simp [addScamHash], by simp [addScamHash], ?_, ?_,
    by simp [addScamHash, getTotalScams], by simp [addScamHash, getTotalScams]⟩
  · rw [getScamByIndex_lt (by simp [addScamHash])]
    simp only [addScamHash]
    rw [hA]
  · rw [getScamByIndex_lt (by simp [addScamHash])]
    simp only [addScamHash]
    rw [hB]

/-- Claim C9: `addScamHash` never modifies existing entries — every
index below the old count reads back exactly the same triple after the
append, and the old entries remain in place (and in order) as the prefix
of the new array. -/
theorem addScamHash_frame (st : LedgerState) (hashArg categoryArg : String)
    (ts : Nat) (i : Nat) (hi : i < getTotalScams st) :
    getScamByIndex (addScamHash st hashArg categoryArg ts).1 i = getScamByIndex st i ∧
    (addScamHash st hashArg categoryArg ts).1.scams.take (getTotalScams st) = st.scams := by
  have hi' : i < st.scams.length := hi
  constructor
  · have hlt2 : i < (addScamHash st hashArg categoryArg ts).1.scams.length := by
      simp only [addScamHash, List.length_append, List.length_cons, List.length_nil]
      omega
    rw [getScamByIndex_lt hlt2, getScamByIndex_lt hi']
    have hsame : (addScamHash st hashArg categoryArg ts).1.scams[i] = st.scams[i] := by
      simp only [addScamHash]
      exact List.getElem_append_left hi'
    rw [hsame]
  · simp only [addScamHash, getTotalScams]
    exact List.take_left st.scams _

/-- Witness for claim C9 at a concrete one-entry ledger. -/
theorem addScamHash_frame_witness :
    getScamByIndex (addScamHash exLedger1 exHash exCat 7).1 0 = getScamByIndex exLedger1 0 ∧
    (addScamHash exLedger1 exHash exCat 7).1.scams.take (getTotalScams exLedger1) =
      exLedger1.scams :=
  addScamHash_frame exLedger1 exHash exCat 7 0 (by decide)

/-- Claim C10: `getScamByIndex` succeeds with the stored triple exactly
when the index is below `getTotalScams`, reverts with the bounds message
otherwise, and neither view call mutates the ledger state. -/
theorem getScamByIndex_bounds (st : LedgerState) (i : Nat) :
    ((∃ v, getScamByIndex st i = Except.ok v) ↔ i < getTotalScams st) ∧
    (∀ hlt : i < st.scams.length,
      getScamByIndex st i =
        Except.ok ((st.scams[i]).hash, (st.scams[i]).category, (st.scams[i]).timestamp)) ∧
    (getTotalScams st ≤ i → getScamByIndex st i = Except.error idxErrMsg) ∧
    (getScamByIndexCall st i).2 = st ∧
    (getTotalScamsCall st).2 = st := by
  refine ⟨⟨?_, ?_⟩, ?_, ?_, rfl, rfl⟩
  · rintro ⟨v, hv⟩
    by_contra hge
    rw [getScamByIndex_ge hge] at hv
    simp at hv
  · intro hlt
    exact ⟨_, getScamByIndex_lt hlt⟩
  · intro hlt
    exact getScamByIndex_lt hlt
  · intro hge
    rw [getTotalScams] at hge
    exact getScamByIndex_ge (by omega)

/-- Witness for claim C10 at a concrete one-entry ledger: index 0 reads
back successfully and index 3 reverts. -/
theorem getScamByIndex_bounds_witness :
    (∃ v, getScamByIndex exLedger1 0 = Except.ok v) ∧
    getScamByIndex exLedger1 3 = Except.error idxErrMsg :=
  ⟨(getScamByIndex_bounds exLedger1 0).1.mpr (by decide),
   (getScamByIndex_bounds exLedger1 3).2.2.1 (by decide)⟩

/-! ## Scoring claims C5, C6, C2, C8 -/

/-- Claim C5: the WhatsApp-forward post-adjustment keeps the published
probability inside the unit interval — `min(p + 0.15, 0.99)` never
exceeds 1 and never falls below 0 for p in the unit interval. -/
theorem boost_preserves_unit_interval (message : List Nat) (r : AnalysisResult)
    (h0 : 0 ≤ r.probability) (h1 : r.probability ≤ 1) :
    0 ≤ (whatsappBoost message r).probability ∧
      (whatsappBoost message r).probability ≤ 1 := by
  rw [whatsappBoost]
  by_cases he : message.isEmpty = true
  · rw [if_pos he]; exact ⟨h0, h1⟩
  · rw [if_neg he]
    by_cases ht : ((strCodes fwdTag).isPrefixOf ((trim message).map toLowerCode) ||
        containsSeq (strCodes fwdManyTag) ((trim message).map toLowerCode)) = true
    · rw [if_pos ht]
      by_cases hg : r.red_flags.contains guardFlag = true
      · rw [if_pos hg]; exact ⟨h0, h1⟩
      · rw [if_neg hg]
        refine ⟨le_min (by linarith) (by norm_num),
          (min_le_right _ _).trans (by norm_num)⟩
    · rw [if_neg ht]; exact ⟨h0, h1⟩

/-- Witness for claim C5 at the example forward message and result. -/
theorem boost_preserves_unit_interval_witness :
    0 ≤ (whatsappBoost fwdMsg exResult).probability ∧
      (whatsappBoost fwdMsg exResult).probability ≤ 1 :=
  boost_preserves_unit_interval fwdMsg exResult
    (by norm_num [exResult]) (by norm_num [exResult])

/-- Claim C6, counterexample: at probability 0.495 the `ResultCard`
verdict is scam (`Math.round(49.5) = 50` and `50 >= 50`) even though
0.495 is strictly below 0.5, so the displayed verdict is not "scam iff
the probability is at least 0.5". -/
theorem resultCard_scam_below_half :
    resultCardIsScam (99 / 200) = true ∧ ¬ ((1 : ℚ) / 2 ≤ 99 / 200) := by
  constructor
  · simp only [resultCardIsScam, pctOf, jsRound, decide_eq_true_eq, Int.le_floor]
    norm_num
  · norm_num

/-- Claim C6 (amended): the `ResultCard` verdict is scam iff the rounded
percentage `Math.round(probability * 100)` is at least 50, which in
exact arithmetic is probability ≥ 0.495; the `LocalHistory` verdict is
scam iff probability ≥ 0.5. Below 0.495 both show safe. -/
theorem verdict_thresholds (p : ℚ) :
    (resultCardIsScam p = true ↔ 99 / 200 ≤ p) ∧
    (localHistoryIsScam p = true ↔ 1 / 2 ≤ p) := by
  constructor
  · simp only [resultCardIsScam, pctOf, jsRound, decide_eq_true_eq, Int.le_floor]
    push_cast
    constructor <;> intro h <;> linarith
  · simp [localHistoryIsScam]

/-- Claim C2: at the concrete forward message, applying the WhatsApp
boost a second time to an already-boosted result changes both the
probability (0.5 to 0.65 to 0.8) and the red-flag list (the flag is
inserted a second time): the dedup guard checks for the flag string
"Mass-forwarded message pattern detected" while the boost inserts
"Mass-forwarded WhatsApp pattern detected", so the guard never sees the
flag the first application added and the boost double-counts. -/
theorem whatsapp_boost_not_idempotent :
    (whatsappBoost fwdMsg exResult).probability = 13 / 20 ∧
    (whatsappBoost fwdMsg (whatsappBoost fwdMsg exResult)).probability = 4 / 5 ∧
    (whatsappBoost fwdMsg (whatsappBoost fwdMsg exResult)).probability ≠
      (whatsappBoost fwdMsg exResult).probability ∧
    (whatsappBoost fwdMsg (whatsappBoost fwdMsg exResult)).red_flags ≠
      (whatsappBoost fwdMsg exResult).red_flags := by
  have c1 : ¬ (fwdMsg.isEmpty = true) := by decide
  have c2 : ((strCodes fwdTag).isPrefixOf ((trim fwdMsg).map toLowerCode) ||
      containsSeq (strCodes fwdManyTag) ((trim fwdMsg).map toLowerCode)) = true := by
    decide
  have hb1 : whatsappBoost fwdMsg exResult =
      ⟨13 / 20, exCat, [addedFlag], exAdvice⟩ := by
    rw [whatsappBoost, if_neg c1, if_pos c2,
      if_neg (by decide : ¬ (exResult.red_flags.contains guardFlag = true))]
    show (⟨min (exResult.probability + 15 / 100) (99 / 100), exCat,
      addedFlag :: exResult.red_flags, exAdvice⟩ : AnalysisResult) = _
    have : min (exResult.probability + 15 / 100) (99 / 100) = 13 / 20 := by
      rw [show exResult.probability = 1 / 2 from rfl]
      rw [min_eq_left (by norm_num)]
      norm_num
    rw [this, show exResult.red_flags = ([] : List String) from rfl]
  have hb2 : whatsappBoost fwdMsg (whatsappBoost fwdMsg exResult) =
      ⟨4 / 5, exCat, [addedFlag, addedFlag], exAdvice⟩ := by
    rw [hb1, whatsappBoost, if_neg c1, if_pos c2,
      if_neg (by decide :
        ¬ ((⟨13 / 20, exCat, [addedFlag], exAdvice⟩ :
          AnalysisResult).red_flags.contains guardFlag = true))]
    show (⟨min ((13 : ℚ) / 20 + 15 / 100) (99 / 100), exCat,
      [addedFlag, addedFlag], exAdvice⟩ : AnalysisResult) = _
    have : min ((13 : ℚ) / 20 + 15 / 100) (99 / 100) = 4 / 5 := by
      rw [min_eq_left (by norm_num)]
      norm_num
    rw [this]
  rw [hb2, hb1]
  refine ⟨rfl, rfl, by norm_num, by simp⟩

/-- Claim C8: the fingerprint pipeline is deterministic and reads no
ambient browser state — its result is the same under any wall clock and
any random seed, hence two runs on the same text produce the same hex
digest. -/
theorem fingerprint_pipeline_deterministic (e1 e2 : BrowserEnv) (t : List Nat) :
    fingerprintPipeline e1 t = fingerprintPipeline e2 t := rfl

/-! ## Store-path claim C4 -/

/-- Claim C4, counterexample: with an analysis result present and the
whitespace-only message "   ", `handleStoreOnBlockchain` does not reject
— it normalizes the three spaces to the empty canonical string, hashes
it, and submits the digest of the empty string for storage. -/
theorem store_hashes_whitespace_only_input :
    normalizeForHash wsOnly3 = [] ∧
    handleStoreOnBlockchain (some exResult) wsOnly3 none =
      some ⟨sha256 [], exCat⟩ := by
  have ht : trim wsOnly3 = [] := by decide
  have hn : normalizeForHash wsOnly3 = [] := by
    rw [normalizeForHash, ht]
    exact collapseWS_nil
  refine ⟨hn, ?_⟩
  rw [handleStoreOnBlockchain]
  rw [if_neg (by decide : ¬ (wsOnly3.isEmpty = true)), hn]
  rfl

/-- Claim C4 (amended): the analyze entry point does reject empty or
whitespace-only text when no image is attached, but the store path
performs no such validation: for any whitespace-only non-empty message
and any present analysis result, `handleStoreOnBlockchain` produces and
submits the SHA-256 digest of the empty canonical string instead of
failing with `NormalizationInputInvalid`. -/
theorem store_no_empty_input_validation (msg : List Nat) (r : AnalysisResult)
    (hws : ∀ c ∈ msg, isWS c = true) :
    handleAnalyzeAccepts msg false = false ∧
    (msg ≠ [] → handleStoreOnBlockchain (some r) msg none =
      some ⟨sha256 [], r.category⟩) := by
  have hdrop : msg.dropWhile isWS = [] := List.dropWhile_eq_nil_iff.mpr hws
  have ht : trim msg = [] := by
    rw [trim, hdrop]
    rfl
  constructor
  · rw [handleAnalyzeAccepts, ht]
    rfl
  · intro hne
    have hn : normalizeForHash msg = [] := by
      rw [normalizeForHash, ht]
      exact collapseWS_nil
    rw [handleStoreOnBlockchain,
      if_neg (by simp [List.isEmpty_iff, hne] : ¬ (msg.isEmpty = true)), hn]

/-- Witness for the amended claim C4 at the three-space message. -/
theorem store_no_empty_input_validation_witness :
    handleAnalyzeAccepts wsOnly3 false = false ∧
    handleStoreOnBlockchain (some exResult) wsOnly3 none =
      some ⟨sha256 [], exCat⟩ := by
  have h := store_no_empty_input_validation wsOnly3 exResult (by decide)
  exact ⟨h.1, h.2 (by decide)⟩

/-! ## Normalization theory for claim C1 -/

/-- Characterization of the whitespace class as a proposition. -/
theorem isWS_iff (c : Nat) :
    isWS c = true ↔ (c = 9 ∨ c = 10 ∨ c = 11 ∨ c = 12 ∨ c = 13 ∨ c = 32 ∨
      c = 160 ∨ c = 5760 ∨ (8192 ≤ c ∧ c ≤ 8202) ∨ c = 8232 ∨ c = 8233 ∨
      c = 8239 ∨ c = 8287 ∨ c = 12288 ∨ c = 65279) := by
  simp [isWS, Bool.or_eq_true, Bool.and_eq_true, beq_iff_eq, decide_eq_true_eq]
  tauto

/-- Code points in the printable ASCII letter range are not whitespace. -/
theorem isWS_false_of_range {c : Nat} (h1 : 33 ≤ c) (h2 : c ≤ 159) :
    isWS c = false := by
  cases hc : isWS c with
  | false => rfl
  | true => exact absurd ((isWS_iff c).mp hc) (by omega)

/-- Lowercasing never changes whether a code point is whitespace. -/
theorem isWS_toLowerCode (c : Nat) : isWS (toLowerCode c) = isWS c := by
  rw [toLowerCode]
  split_ifs with h
  · rw [isWS_false_of_range (by omega) (by omega),
      isWS_false_of_range (by omega) (by omega)]
  · rfl

/-- The head surviving a `dropWhile` fails the predicate. -/
theorem dropWhile_head_false {p : Nat → Bool} :
    ∀ {l : List Nat} {e : Nat} {t : List Nat},
      l.dropWhile p = e :: t → p e = false := by
  intro l
  induction l with
  | nil => intro e t h; simp at h
  | cons c rest ih =>
    intro e t h
    by_cases hc : p c = true
    · rw [List.dropWhile_cons_of_pos hc] at h
      exact ih h
    · rw [List.dropWhile_cons_of_neg hc] at h
      injection h with h1 _
      subst h1
      simpa using hc

/-- A list of non-whitespace characters survives `dropWhile isWS`. -/
theorem dropWhile_eq_self_of_all {a : List Nat} (h : ∀ x ∈ a, isWS x = false) :
    a.dropWhile isWS = a := by
  cases a with
  | nil => rfl
  | cons c t => exact List.dropWhile_cons_of_neg (by simp [h c (List.mem_cons_self _ _)])

/-- Right-trimming an all-whitespace list yields the empty list. -/
theorem trimR_allWS {l : List Nat} (h : ∀ x ∈ l, isWS x = true) : trimR l = [] := by
  have hnil : l.reverse.dropWhile isWS = [] :=
    List.dropWhile_eq_nil_iff.mpr fun x hx => h x (List.mem_reverse.mp hx)
  rw [trimR, hnil, List.reverse_nil]

/-- Right-trimming steps over the head when non-whitespace remains in
the tail. -/
theorem trimR_cons_of_tail {e : Nat} {t : List Nat}
    (ht : ∃ x ∈ t, isWS x = false) : trimR (e :: t) = e :: trimR t := by
  have hne : t.reverse.dropWhile isWS ≠ [] := by
    intro hnil
    obtain ⟨x, hx, hfx⟩ := ht
    have := List.dropWhile_eq_nil_iff.mp hnil x (List.mem_reverse.mpr hx)
    rw [hfx] at this
    exact Bool.false_ne_true this
  rw [trimR, List.reverse_cons, List.dropWhile_append,
    if_neg (by simpa [List.isEmpty_iff] using hne)]
  simp [trimR]

/-- Right-trimming a non-whitespace head with an all-whitespace tail
keeps exactly the head. -/
theorem trimR_cons_allWS {e : Nat} {t : List Nat} (he : isWS e = false)
    (ht : ∀ x ∈ t, isWS x = true) : trimR (e :: t) = [e] := by
  have hnil : t.reverse.dropWhile isWS = [] :=
    List.dropWhile_eq_nil_iff.mpr fun x hx => ht x (List.mem_reverse.mp hx)
  rw [trimR, List.reverse_cons, List.dropWhile_append, if_pos (by simp [hnil])]
  rw [List.dropWhile_cons_of_neg (by simp [he])]
  rfl

/-- Right-trimming ignores a left part when the right part holds some
non-whitespace character. -/
theorem trimR_append_left {a s : List Nat} (hs : ∃ x ∈ s, isWS x = false) :
    trimR (a ++ s) = a ++ trimR s := by
  have hne : s.reverse.dropWhile isWS ≠ [] := by
    intro hnil
    obtain ⟨x, hx, hfx⟩ := hs
    have := List.dropWhile_eq_nil_iff.mp hnil x (List.mem_reverse.mpr hx)
    rw [hfx] at this
    exact Bool.false_ne_true this
  rw [trimR, List.reverse_append, List.dropWhile_append,
    if_neg (by simpa [List.isEmpty_iff] using hne)]
  simp [trimR]

/-- Left-stripping and right-trimming whitespace commute. -/
theorem dropWhile_trimR_comm (l : List Nat) :
    (trimR l).dropWhile isWS = trimR (l.dropWhile isWS) := by
  by_cases hall : ∀ x ∈ l, isWS x = true
  · rw [trimR_allWS hall, List.dropWhile_nil,
      List.dropWhile_eq_nil_iff.mpr hall]
    rfl
  · have hex : ∃ x ∈ l, isWS x = false := by
      push_neg at hall
      obtain ⟨x, hx, hfx⟩ := hall
      exact ⟨x, hx, by simpa using hfx⟩
    obtain ⟨e, s', hse⟩ : ∃ e s', l.dropWhile isWS = e :: s' := by
      cases hd : l.dropWhile isWS with
      | nil =>
        obtain ⟨x, hx, hfx⟩ := hex
        have := List.dropWhile_eq_nil_iff.mp hd x hx
        rw [hfx] at this
        exact absurd this (by simp)
      | cons e s' => exact ⟨e, s', rfl⟩
    have he : isWS e = false := dropWhile_head_false hse
    have hesx : ∃ x ∈ l.dropWhile isWS, isWS x = false :=
      ⟨e, by rw [hse]; exact List.mem_cons_self _ _, he⟩
    have h1 : trimR l = l.takeWhile isWS ++ trimR (l.dropWhile isWS) := by
      conv_lhs => rw [← List.takeWhile_append_dropWhile (p := isWS) (l := l)]
      exact trimR_append_left hesx
    have htake : (l.takeWhile isWS).dropWhile isWS = [] :=
      List.dropWhile_eq_nil_iff.mpr fun x hx => List.mem_takeWhile_imp hx
    rw [h1, List.dropWhile_append, if_pos (by simp [htake])]
    have h3 : ∃ u, trimR (l.dropWhile isWS) = e :: u := by
      rw [hse]
      by_cases hts : ∀ x ∈ s', isWS x = true
      · exact ⟨[], trimR_cons_allWS he hts⟩
      · refine ⟨trimR s', trimR_cons_of_tail ?_⟩
        push_neg at hts
        obtain ⟨x, hx, hfx⟩ := hts
        exact ⟨x, hx, by simpa using hfx⟩
    obtain ⟨u, hu⟩ := h3
    rw [hu, List.dropWhile_cons_of_neg (by simp [he]), ← hu]

/-- Collapsing whitespace leaves a non-whitespace run intact. -/
theorem collapseWS_append_nonWS {w b : List Nat}
    (hw : ∀ x ∈ w, isWS x = false) : collapseWS (w ++ b) = w ++ collapseWS b := by
  induction w with
  | nil => simp
  | cons c w ih =>
    have hc : isWS c = false := hw c (List.mem_cons_self _ _)
    rw [List.cons_append, collapseWS_cons, if_neg (by simp [hc]),
      ih fun x hx => hw x (List.mem_cons_of_mem _ hx)]
    rfl

/-- An all-whitespace text has no words. -/
theorem wordsOf_allWS {l : List Nat} (h : ∀ x ∈ l, isWS x = true) :
    wordsOf l = [] := by
  cases l with
  | nil => exact wordsOf_nil
  | cons c rest =>
    rw [wordsOf_cons, if_pos (h c (List.mem_cons_self _ _)),
      List.dropWhile_eq_nil_iff.mpr fun x hx => h x (List.mem_cons_of_mem _ hx)]
    exact wordsOf_nil

/-- Joining a word onto a non-empty word list inserts one space. -/
theorem joinWords_cons {w : List Nat} {ws : List (List Nat)} (h : ws ≠ []) :
    joinWords (w :: ws) = w ++ 32 :: joinWords ws := by
  cases ws with
  | nil => exact absurd rfl h
  | cons w2 ws2 => rfl

set_option maxHeartbeats 1600000 in
theorem collapse_trim_eq (m : List Nat) :
    collapseWS (trim m) = joinWords (wordsOf m) := by
  induction m using wordsOf.induct with
  | case1 =>
    rw [wordsOf_nil, trim, List.dropWhile_nil,
      show trimR [] = ([] : List Nat) from rfl, collapseWS_nil]
    rfl
  | case2 c rest hc ih =>
    rw [wordsOf_cons, if_pos hc, trim, List.dropWhile_cons_of_pos hc]
    rw [trim, List.dropWhile_idempotent] at ih
    exact ih
  | case3 c rest hc ih =>
    have hcf : isWS c = false := by simpa using hc
    have hwAll : ∀ x ∈ c :: rest.takeWhile (fun x => !isWS x), isWS x = false := by
      intro x hx
      rcases List.mem_cons.mp hx with h1 | h2
      · subst h1; exact hcf
      · simpa using List.mem_takeWhile_imp h2
    have hmsplit : c :: rest =
        (c :: rest.takeWhile (fun x => !isWS x)) ++
          rest.dropWhile (fun x => !isWS x) := by
      simp [List.takeWhile_append_dropWhile]
    rw [wordsOf_cons, if_neg hc]
    by_cases hr : ∀ x ∈ rest.dropWhile (fun x => !isWS x), isWS x = true
    · -- everything after the leading word is whitespace
      rw [wordsOf_allWS hr]
      show collapseWS (trim (c :: rest)) = c :: rest.takeWhile (fun x => !isWS x)
      rw [trim, List.dropWhile_cons_of_neg (by simp [hcf])]
      conv_lhs => rw [hmsplit]
      have htrim : trimR ((c :: rest.takeWhile (fun x => !isWS x)) ++
          rest.dropWhile (fun x => !isWS x)) =
          c :: rest.takeWhile (fun x => !isWS x) := by
        rw [trimR, List.reverse_append,
          List.dropWhile_append_of_pos fun x hx => hr x (List.mem_reverse.mp hx),
          dropWhile_eq_self_of_all fun x hx => hwAll x (List.mem_reverse.mp hx),
          List.reverse_reverse]
      rw [htrim]
      have hcw := collapseWS_append_nonWS (b := []) hwAll
      simpa [collapseWS_nil] using hcw
    · -- a later word exists
      have hex : ∃ x ∈ rest.dropWhile (fun x => !isWS x), isWS x = false := by
        push_neg at hr
        obtain ⟨x, hx, hfx⟩ := hr
        exact ⟨x, hx, by simpa using hfx⟩
      obtain ⟨d, r2, hrd⟩ :
          ∃ d r2, rest.dropWhile (fun x => !isWS x) = d :: r2 := by
        cases hd : rest.dropWhile (fun x => !isWS x) with
        | nil =>
          rw [hd] at hex
          simp at hex
        | cons d r2 => exact ⟨d, r2, rfl⟩
      have hdw : isWS d = true := by
        have := dropWhile_head_false (p := fun x => !isWS x) hrd
        simpa using this
      have hex2 : ∃ x ∈ r2, isWS x = false := by
        obtain ⟨x, hx, hfx⟩ := hex
        rw [hrd] at hx
        rcases List.mem_cons.mp hx with h1 | h2
        · subst h1; rw [hdw] at hfx; cases hfx
        · exact ⟨x, h2, hfx⟩
      have hex3 : ∃ x ∈ r2.dropWhile isWS, isWS x = false := by
        obtain ⟨x, hx, hfx⟩ := hex2
        have hx3 : x ∈ r2.dropWhile isWS := by
          have hx' : x ∈ r2.takeWhile isWS ++ r2.dropWhile isWS := by
            rw [List.takeWhile_append_dropWhile]
            exact hx
          rcases List.mem_append.mp hx' with h1 | h2
          · have := List.mem_takeWhile_imp h1
            rw [hfx] at this
            exact absurd this (by simp)
          · exact h2
        exact ⟨x, hx3, hfx⟩
      obtain ⟨e, r3t, hre⟩ : ∃ e r3t, r2.dropWhile isWS = e :: r3t := by
        cases hd : r2.dropWhile isWS with
        | nil =>
          rw [hd] at hex3
          simp at hex3
        | cons e r3t => exact ⟨e, r3t, rfl⟩
      have hew : isWS e = false := dropWhile_head_false hre
      have hwne : wordsOf (r2.dropWhile isWS) ≠ [] := by
        rw [hre, wordsOf_cons, if_neg (by simp [hew])]
        simp
      have hw2 : wordsOf (d :: r2) = wordsOf (r2.dropWhile isWS) := by
        rw [wordsOf_cons, if_pos hdw]
      have hw2' : wordsOf (rest.dropWhile (fun x => !isWS x)) =
          wordsOf (r2.dropWhile isWS) := by
        rw [hrd, hw2]
      rw [hw2', joinWords_cons hwne]
      rw [trim, List.dropWhile_cons_of_neg (by simp [hcf])]
      conv_lhs => rw [hmsplit]
      rw [trimR_append_left hex, collapseWS_append_nonWS hwAll]
      congr 1
      rw [hrd, trimR_cons_of_tail hex2, collapseWS_cons, if_pos hdw]
      congr 1
      rw [dropWhile_trimR_comm]
      have htr : trim (d :: r2) = trimR (r2.dropWhile isWS) := by
        rw [trim, List.dropWhile_cons_of_pos hdw]
      rw [hrd, htr, hw2] at ih
      exact ih

/-- Lowercasing commutes with `dropWhile isWS`. -/
theorem dropWhile_map_toLower (l : List Nat) :
    (l.map toLowerCode).dropWhile isWS = (l.dropWhile isWS).map toLowerCode := by
  rw [List.dropWhile_map]
  have : isWS ∘ toLowerCode = isWS := by
    funext x
    simp [Function.comp, isWS_toLowerCode]
  rw [this]

/-- Lowercasing commutes with trimming. -/
theorem map_trim_comm (t : List Nat) :
    (trim t).map toLowerCode = trim (t.map toLowerCode) := by
  rw [trim, trim, trimR, trimR, dropWhile_map_toLower, ← List.map_reverse,
    dropWhile_map_toLower, ← List.map_reverse]

/-- The normalized form of a text is its lowercased words joined by
single spaces. -/
theorem normalizeForHash_eq_joinWords (t : List Nat) :
    normalizeForHash t = joinWords (wordsOf (t.map toLowerCode)) := by
  rw [normalizeForHash, map_trim_comm, collapse_trim_eq]

/-- Claim C1: two texts that differ only in letter case or in
whitespace arrangement (leading/trailing whitespace and interior runs of
spaces, tabs or newlines) normalize identically, so the fingerprint
pipeline produces identical digests:
`sha256(normalizeForHash(T1)) = sha256(normalizeForHash(T2))`. -/
theorem fingerprint_invariant_case_ws (t1 t2 : List Nat)
    (h : sameUpToCaseWS t1 t2) :
    sha256 (normalizeForHash t1) = sha256 (normalizeForHash t2) := by
  suffices hn : normalizeForHash t1 = normalizeForHash t2 by rw [hn]
  rw [normalizeForHash_eq_joinWords, normalizeForHash_eq_joinWords, h]

/-- Witness for claim C1 at the concrete texts "Hi  THERE" and
" hi", tab, "there", newline: same words up to case and whitespace,
hence equal digests. -/
theorem fingerprint_invariant_case_ws_witness :
    sameUpToCaseWS exCodes1 exCodes2 ∧
      sha256 (normalizeForHash exCodes1) = sha256 (normalizeForHash exCodes2) := by
  have hmap1 : exCodes1.map toLowerCode =
      [104, 105, 32, 32, 116, 104, 101, 114, 101] := by decide
  have hmap2 : exCodes2.map toLowerCode =
      [32, 104, 105, 9, 116, 104, 101, 114, 101, 10] := by decide
  have h : sameUpToCaseWS exCodes1 exCodes2 := by
    rw [sameUpToCaseWS, hmap1, hmap2]
    simp [wordsOf_cons, wordsOf_nil, isWS]
  exact ⟨h, fingerprint_invariant_case_ws exCodes1 exCodes2 h⟩
